import Mathlib

/-!
Verification of the goava signature-database engine (`lib/db/db.go`).

The development shallowly embeds the final in-memory implementation:

* a `DB` record mirrors the fields of the Go `DB` struct that the loader and
  the query methods read or write (the deprecated SQL handle and the logging
  switch are omitted: `nl` only prints and never touches engine state);
* `LoadSigs` is modelled over the list of signature-file lines the directory
  walk feeds it, each tagged with the family of the file it came from
  (`.hdb/.hsb/.hdu/.hsu` versus `.csv`); walking several files is the
  concatenation of their lines in walk order;
* Go strings are Lean `String`s; the signature files hold ASCII data, where
  Go's bytewise string order coincides with the code-point order `lexLe`
  defined below; `strings.Split` with the one-character separators used by
  the loader is `splitChar`;
* Go `int`/`int64` are `Int`; `strconv.ParseInt(_, 10, 64)` is `parseInt64`;
* the Go map `hashToItem` is an association list with overwrite-on-insert;
* `sort.Search` (the binary search inside `sort.SearchStrings` and
  `sort.SearchInts`) is `goSearch`, written with explicit fuel so that it
  computes; `slices.Sort` produces the unique sorted permutation of a slice,
  modelled by insertion sort;
* the external `bits-and-blooms` Bloom filter is modelled generically: a bit
  set together with an arbitrary family of hash functions reduced modulo the
  bit-array size.  `bloom.NewWithEstimates` sizes the filter from the entry
  count and the requested false-positive rate using floating-point math; the
  model keeps the resulting parameters abstract (fields `bloomM` and
  `bloomHashFuns` of `DB`), since the properties claimed here hold for every
  choice of parameters;
* a Go runtime panic (indexing past the end of the fields slice) is a
  distinguished outcome, separate from an error return.
-/

/-- Code-point comparison of character lists; on the ASCII data of signature
files this is exactly Go's bytewise string order. -/
def lexLe : List Char → List Char → Bool
  | [], _ => true
  | _ :: _, [] => false
  | a :: as, b :: bs =>
    if a.toNat < b.toNat then true
    else if b.toNat < a.toNat then false
    else lexLe as bs

/-- Go's `s <= t` on strings (bytewise, here code-point-wise). -/
def strLe (s t : String) : Bool := lexLe s.data t.data

/-- Go's `a <= b` on `int`. -/
def intLe (a b : Int) : Bool := decide (a ≤ b)

/-- The proposition underlying a boolean comparison function. -/
def leRel {α : Type} (le : α → α → Bool) : α → α → Prop := fun a b => le a b = true

instance {α : Type} (le : α → α → Bool) : DecidableRel (leRel le) :=
  fun a b => instDecidableEqBool (le a b) true

/-- `slices.Sort`: the (unique) sorted permutation of the slice, realised by
insertion sort. -/
def sortBy {α : Type} (le : α → α → Bool) (l : List α) : List α :=
  List.insertionSort (leRel le) l

/-- `strings.Split s (String.singleton sep)` for the one-character separators
used by the loader: splits around every occurrence of `sep`; the result is
never empty and an empty input yields one empty field, as in Go. -/
def splitCharAux (sep : Char) : List Char → List Char → List String
  | [], acc => [String.mk acc.reverse]
  | c :: cs, acc =>
    if c = sep then String.mk acc.reverse :: splitCharAux sep cs []
    else splitCharAux sep cs (c :: acc)

def splitChar (sep : Char) (s : String) : List String := splitCharAux sep s.data []

/-- Numeric value of a digit string. -/
def digitsVal (ds : List Char) : Nat :=
  ds.foldl (fun acc c => acc * 10 + (c.toNat - 48)) 0

/-- `strconv.ParseInt(s, 10, 64)`: optional sign, a non-empty run of decimal
digits, and the value must fit in a signed 64-bit integer; `none` is a Go
error return (`ErrSyntax` or `ErrRange`). -/
def parseInt64 (s : String) : Option Int :=
  match s.data with
  | [] => none
  | c :: cs =>
    let neg : Bool := c = '-'
    let ds : List Char := if c = '-' ∨ c = '+' then cs else c :: cs
    if ds = [] then none
    else if ds.all Char.isDigit then
      let v : Int := if neg then -(digitsVal ds : Int) else (digitsVal ds : Int)
      if (-9223372036854775808 : Int) ≤ v ∧ v ≤ (9223372036854775807 : Int) then some v
      else none
    else none

/-- One parsed signature record, Go struct `HDBItem`. -/
structure HDBItem where
  hash : String
  hashType : String
  filesize : Int
  malwareName : String
  comment : String
deriving DecidableEq, Repr

/-- Go struct `HDBStats`. -/
structure HDBStats where
  count : Nat
deriving DecidableEq, Repr

/-- The `bits-and-blooms` Bloom filter, generically: `bits` is the set of set
bit positions, `hashFuns` the family of hash functions, `m` the bit-array
size.  The library derives `m` and the number of hash functions from the
estimated entry count and the target false-positive rate; every derived
choice is an instance of this model. -/
structure BloomFilter where
  bits : List Nat
  hashFuns : List (String → Nat)
  m : Nat

/-- `BloomFilter.AddString`. -/
def bloomAddString (bf : BloomFilter) (s : String) : BloomFilter :=
  { bf with bits := bf.bits ++ bf.hashFuns.map (fun f => f s % bf.m) }

/-- `BloomFilter.TestString`: every probed bit must be set. -/
def bloomTestString (bf : BloomFilter) (s : String) : Bool :=
  bf.hashFuns.all (fun f => bf.bits.contains (f s % bf.m))

/-- The Go `DB` struct, restricted to the fields the loader and the query
methods use.  `bloomFilter = none` is the nil pointer before `LoadBloom`
runs; `bloomM`/`bloomHashFuns` stand for the parameters
`bloom.NewWithEstimates` would derive from `BloomFalsePositiveRate`. -/
structure DB where
  useBloom : Bool
  unknownSizeAction : Int
  sizeAlwaysTrue : Bool
  bloomM : Nat
  bloomHashFuns : List (String → Nat)
  bloomFilter : Option BloomFilter
  hashes : List String
  sizes : List Int
  hashToItem : List (String × HDBItem)

/-- Go map insertion `m[k] = v`: overwrites the entry for `k` if present. -/
def mapInsert (m : List (String × HDBItem)) (k : String) (v : HDBItem) :
    List (String × HDBItem) :=
  match m with
  | [] => [(k, v)]
  | p :: rest => if p.1 = k then (k, v) :: rest else p :: mapInsert rest k v

/-- Go map read `m[k]` (with presence): `none` is the zero value `nil`. -/
def mapLookup (m : List (String × HDBItem)) (k : String) : Option HDBItem :=
  match m with
  | [] => none
  | p :: rest => if p.1 = k then some p.2 else mapLookup rest k

/-- Outcome of a loading step: a normal return, a returned `error`, or a Go
runtime panic.  Both failure outcomes carry the `DB` as mutated so far,
because `LoadSigs` works in place on the receiver. -/
inductive StepRes where
  | ok (db : DB)
  | err (msg : String) (db : DB)
  | panic (msg : String) (db : DB)

/-- One line of a signature file, tagged with the family of the file the
directory walk found it in. -/
inductive SigLine where
  | hdb (text : String)
  | csv (text : String)

/-- The `switch len(values[0])` computing the hash kind. -/
def hashTypeOf (h : String) : String :=
  if h.length = 32 then ("md5")
  else if h.length = 40 then ("sha1")
  else if h.length = 64 then ("sha256")
  else ("")

/-- The shared tail of the `.hdb` branch: `append` to `hashes` and `sizes`,
then build the `HDBItem` (whose `MalwareName: values[2]` panics when the
line has fewer than three fields — the appends have already happened). -/
def addHdbRecord (db : DB) (values : List String) (fileSize : Int) : StepRes :=
  match values.get? 0 with
  | none => .panic ("index out of range") db
  | some v0 =>
    let db1 : DB :=
      { db with hashes := db.hashes ++ [v0], sizes := db.sizes ++ [fileSize] }
    match values.get? 2 with
    | none => .panic ("index out of range") db1
    | some v2 =>
      .ok { db1 with
              hashToItem :=
                mapInsert db1.hashToItem v0 ⟨v0, hashTypeOf v0, fileSize, v2, ("")⟩ }

/-- One non-empty-line iteration of the `.hdb/.hsb/.hdu/.hsu` scanner loop of
`LoadSigs`: `values[1]` (panics when the line has a single field) is either
the wildcard `*` — handled according to `UnknownSizeAction` — or a decimal
size. -/
def processHdbLine (db : DB) (line : String) : StepRes :=
  if line.length > 0 then
    let values := splitChar ':' line
    match values.get? 1 with
    | none => .panic ("index out of range") db
    | some v1 =>
      if v1 = ("*") then
        if db.unknownSizeAction = 1 then
          addHdbRecord { db with sizeAlwaysTrue := true } values (-1)
        else if db.unknownSizeAction = 0 then
          .ok db
        else
          addHdbRecord db values (-1)
      else
        match parseInt64 v1 with
        | none => .err (("ParseInt: ") ++ v1) db
        | some n => addHdbRecord db values n
  else .ok db

/-- One non-empty-line iteration of the `.csv` scanner loop of `LoadSigs`:
`values[2]` is the size (the index panics on fewer than three fields), the
appends happen, then the `HDBItem` literal reads `values[3]` and
`values[4]`. -/
def processCsvLine (db : DB) (line : String) : StepRes :=
  if line.length > 0 then
    let values := splitChar ',' line
    match values.get? 2 with
    | none => .panic ("index out of range") db
    | some v2 =>
      match parseInt64 v2 with
      | none => .err (("ParseInt: ") ++ v2) db
      | some n =>
        match values.get? 0 with
        | none => .panic ("index out of range") db
        | some v0 =>
          let db1 : DB :=
            { db with hashes := db.hashes ++ [v0], sizes := db.sizes ++ [n] }
          match values.get? 1, values.get? 3, values.get? 4 with
          | some v1, some v3, some v4 =>
            .ok { db1 with hashToItem := mapInsert db1.hashToItem v0 ⟨v0, v1, n, v3, v4⟩ }
          | _, _, _ => .panic ("index out of range") db1
  else .ok db

def processLine (db : DB) : SigLine → StepRes
  | .hdb s => processHdbLine db s
  | .csv s => processCsvLine db s

/-- The directory-walk loop of `LoadSigs`: lines are consumed in walk order;
the first error or panic aborts the walk. -/
def processLines (db : DB) : List SigLine → StepRes
  | [] => .ok db
  | l :: ls =>
    match processLine db l with
    | .ok db' => processLines db' ls
    | .err m d => .err m d
    | .panic m d => .panic m d

/-- The final `slices.Sort(db.sizes); slices.Sort(db.hashes)` of `LoadSigs`. -/
def sortDB (db : DB) : DB :=
  { db with sizes := sortBy intLe db.sizes, hashes := sortBy strLe db.hashes }

/-- `DB.LoadSigs` over the lines the walk visits: on success the accumulated
hashes and sizes are sorted; an error or panic leaves them as they were at
the point of failure. -/
def loadSigs (db : DB) (lines : List SigLine) : StepRes :=
  match processLines db lines with
  | .ok db' => .ok (sortDB db')
  | .err m d => .err m d
  | .panic m d => .panic m d

/-- `DB.LoadBloom`: when `UseBloom` is set, build the filter from the whole
hash list; otherwise do nothing (the filter pointer stays nil). -/
def loadBloom (db : DB) : DB :=
  if db.useBloom then
    { db with
        bloomFilter :=
          some (db.hashes.foldl bloomAddString
            { bits := [], hashFuns := db.bloomHashFuns, m := db.bloomM }) }
  else db

/-- `DB.LoadAll`: `LoadSigs`, then — only on success — `LoadBloom`. -/
def loadAll (db : DB) (lines : List SigLine) : StepRes :=
  match loadSigs db lines with
  | .ok d => .ok (loadBloom d)
  | .err m d => .err m d
  | .panic m d => .panic m d

/-- Go's `sort.Search(n, f)` loop with explicit fuel (the loop halves the
interval, so any `fuel ≥ j - i` computes the same result): the smallest
index in `[i, j)` satisfying `f`, or `j`. -/
def goSearch (f : Nat → Bool) : Nat → Nat → Nat → Nat
  | 0, i, _ => i
  | fuel + 1, i, j =>
    if i < j then
      if f ((i + j) / 2) then goSearch f fuel i ((i + j) / 2)
      else goSearch f fuel ((i + j) / 2 + 1) j
    else i

/-- `sort.Search(len(a), func(i) bool { return a[i] >= x })`, the common body
of `sort.SearchStrings` and `sort.SearchInts`.  Go only indexes `a[i]` for
`i < len(a)`; the `getD` default is never reached inside the search and is
chosen as `x` itself. -/
def sortSearch {α : Type} (le : α → α → Bool) (a : List α) (x : α) : Nat :=
  goSearch (fun h => le x (a.getD h x)) a.length 0 a.length

def searchStrings (a : List String) (x : String) : Nat := sortSearch strLe a x

def searchInts (a : List Int) (x : Int) : Nat := sortSearch intLe a x

/-- Result of a query method: the Go return values `(value, error)` together
with the receiver state when the call returns, or a runtime panic (the nil
`bloomFilter` dereference is the only query-time panic source). -/
inductive QueryRes (α : Type) where
  | ok (val : α) (err : Option String) (db : DB)
  | panic (msg : String)

/-- `DB.HasSigWithHash`: Bloom-filter test when `UseBloom` is set (a nil
filter panics), otherwise binary search over the sorted hashes. -/
def hasSigWithHash (db : DB) (hash : String) : QueryRes Bool :=
  if db.useBloom then
    match db.bloomFilter with
    | some bf => .ok (bloomTestString bf hash) none db
    | none => .panic ("nil pointer dereference")
  else
    let index := searchStrings db.hashes hash
    .ok (decide (index < db.hashes.length) && (db.hashes.getD index ("") == hash)) none db

/-- `DB.HasSigWithSize`: short-circuits to `true` when `sizeAlwaysTrue` is
set, otherwise binary search over the sorted sizes. -/
def hasSigWithSize (db : DB) (size : Int) : QueryRes Bool :=
  if db.sizeAlwaysTrue then .ok true none db
  else
    let index := searchInts db.sizes size
    .ok (decide (index < db.sizes.length) && (db.sizes.getD index 0 == size)) none db

/-- `DB.GetItemByHash`: binary search, then map lookup; a miss returns the
`hash not found` error. -/
def getItemByHash (db : DB) (hash : String) : QueryRes (Option HDBItem) :=
  let index := searchStrings db.hashes hash
  if index < db.hashes.length ∧ db.hashes.getD index ("") = hash then
    .ok (mapLookup db.hashToItem hash) none db
  else
    .ok none (some (("hash ") ++ hash ++ (" not found"))) db

/-- `DB.GetItemBySize`: `for _, item := range db.hashToItem` — a linear scan
over the map.  Go's map range order is unspecified and runtime-randomized,
so two calls on the same state may visit the entries differently; the model
therefore takes the visiting order as an explicit argument, constrained
where used to be a permutation of the map's entries.  The result is the
first visited item with the requested size. -/
def getItemBySize (db : DB) (size : Int) (order : List (String × HDBItem)) :
    QueryRes (Option HDBItem) :=
  match order.find? (fun p => p.2.filesize == size) with
  | some p => .ok (some p.2) none db
  | none => .ok none (some ("item with size " ++ toString size ++ " not found")) db

/-- `DB.GetHDBStats`: the count of indexed hash entries. -/
def getHDBStats (db : DB) : HDBStats × DB := (⟨db.hashes.length⟩, db)

/-- `New()` followed by `Init()` with the zero-value configuration: empty
indexes, no Bloom filter. -/
def freshDB : DB :=
  { useBloom := false, unknownSizeAction := 0, sizeAlwaysTrue := false,
    bloomM := 0, bloomHashFuns := [], bloomFilter := none,
    hashes := [], sizes := [], hashToItem := [] }

/-- Sortedness with respect to a boolean comparison. -/
def SortedLe {α : Type} (le : α → α → Bool) (l : List α) : Prop :=
  List.Pairwise (leRel le) l

/-- The contribution of one line to the `sizes` sequence, read off the
branches of the scanner loops: a parsed numeric size, the `-1` sentinel for
a wildcard record kept under a policy other than Skip (`UnknownSizeAction`
zero), and nothing otherwise. -/
def lineSizeContrib (action : Int) : SigLine → List Int
  | .hdb s =>
    if s.length > 0 then
      match (splitChar ':' s).get? 1 with
      | none => []
      | some v1 =>
        if v1 = ("*") then
          if action = 0 then [] else [(-1 : Int)]
        else
          match parseInt64 v1 with
          | none => []
          | some n => [n]
    else []
  | .csv s =>
    if s.length > 0 then
      match (splitChar ',' s).get? 2 with
      | none => []
      | some v2 =>
        match parseInt64 v2 with
        | none => []
        | some n => [n]
    else []

/-- The state after loading the single record line `aa:5:X` from a fresh
database. -/
def w1db : DB := { freshDB with
  hashes := [("aa")]
  sizes := [(5 : Int)]
  hashToItem := [(("aa"), ⟨("aa"), (""), 5, ("X"), ("")⟩)] }

/-- A fresh database with the pre-filter enabled, with one hash function
(string length) over an 8-bit array standing for the parameters the library
would derive. -/
def wbloom0 : DB := { freshDB with
  useBloom := true
  bloomM := 8
  bloomHashFuns := [fun s => s.length] }

def wbloom1 : DB := { wbloom0 with
  hashes := [("aa")]
  sizes := [(5 : Int)]
  hashToItem := [(("aa"), ⟨("aa"), (""), 5, ("X"), ("")⟩)] }

/-- The partial state `LoadSigs` leaves behind when the second line of
`[aa:10:A, bb:zz:B]` fails to parse: the first record is already indexed
and nothing is sorted. -/
def c6db : DB := { freshDB with
  hashes := [("aa")]
  sizes := [(10 : Int)]
  hashToItem := [(("aa"), ⟨("aa"), (""), 10, ("A"), ("")⟩)] }

/-- A fresh database configured with the disable-size-checks policy. -/
def c8input : DB := { freshDB with unknownSizeAction := 1 }

/-- The state after loading the single wildcard record `aaaa:*:Mal` under
the disable-size-checks policy: the switch is tripped AND the sentinel `-1`
sits in the sizes sequence. -/
def c8db : DB := { freshDB with
  unknownSizeAction := 1
  sizeAlwaysTrue := true
  hashes := [("aaaa")]
  sizes := [(-1 : Int)]
  hashToItem := [(("aaaa"), ⟨("aaaa"), (""), -1, ("Mal"), ("")⟩)] }

/-- A fresh database configured with the undocumented policy value 2. -/
def c10base : DB := { freshDB with unknownSizeAction := 2 }

/-- A loaded-shape state holding two indexed items with the same size 5,
used to exhibit the map-iteration-order dependence of `GetItemBySize`. -/
def c9db : DB := { freshDB with
  hashes := [("aa"), ("bb")]
  sizes := [(5 : Int), 5]
  hashToItem := [(("aa"), ⟨("aa"), (""), 5, ("A"), ("")⟩),
                 (("bb"), ⟨("bb"), (""), 5, ("B"), ("")⟩)] }

/-! ### The string and integer orders used by `slices.Sort` and `sort.Search` -/

theorem lexLe_cons_iff (a b : Char) (as bs : List Char) :
    lexLe (a :: as) (b :: bs) = true ↔
      (a.toNat < b.toNat ∨ (a.toNat = b.toNat ∧ lexLe as bs = true)) := by
  simp only [lexLe]
  by_cases h1 : a.toNat < b.toNat
  · simp [h1]
  · by_cases h2 : b.toNat < a.toNat
    · simp [h1, h2]
      omega
    · have h3 : a.toNat = b.toNat := by omega
      simp [h1, h2, h3]

theorem lexLe_total : ∀ a b : List Char, lexLe a b = true ∨ lexLe b a = true := by
  intro a
  induction a with
  | nil => intro b; left; rfl
  | cons x xs ih =>
    intro b
    cases b with
    | nil => right; rfl
    | cons y ys =>
      rcases Nat.lt_trichotomy x.toNat y.toNat with h | h | h
      · left; rw [lexLe_cons_iff]; exact Or.inl h
      · rcases ih ys with h' | h'
        · left; rw [lexLe_cons_iff]; exact Or.inr ⟨h, h'⟩
        · right; rw [lexLe_cons_iff]; exact Or.inr ⟨h.symm, h'⟩
      · right; rw [lexLe_cons_iff]; exact Or.inl h

theorem lexLe_trans : ∀ a b c : List Char,
    lexLe a b = true → lexLe b c = true → lexLe a c = true := by
  intro a
  induction a with
  | nil => intro b c _ _; rfl
  | cons x xs ih =>
    intro b c hab hbc
    cases b with
    | nil => simp [lexLe] at hab
    | cons y ys =>
      cases c with
      | nil => simp [lexLe] at hbc
      | cons z zs =>
        rw [lexLe_cons_iff] at hab hbc ⊢
        rcases hab with h1 | ⟨h1, h1'⟩
        · rcases hbc with h2 | ⟨h2, _⟩
          · exact Or.inl (by omega)
          · exact Or.inl (by omega)
        · rcases hbc with h2 | ⟨h2, h2'⟩
          · exact Or.inl (by omega)
          · exact Or.inr ⟨by omega, ih ys zs h1' h2'⟩

theorem lexLe_antisymm : ∀ a b : List Char,
    lexLe a b = true → lexLe b a = true → a = b := by
  intro a
  induction a with
  | nil =>
    intro b _ hba
    cases b with
    | nil => rfl
    | cons y ys => simp [lexLe] at hba
  | cons x xs ih =>
    intro b hab hba
    cases b with
    | nil => simp [lexLe] at hab
    | cons y ys =>
      rw [lexLe_cons_iff] at hab hba
      have hxy : x.toNat = y.toNat := by omega
      have hx : x = y := Char.eq_of_val_eq (UInt32.ext hxy)
      have hrest : lexLe xs ys = true := by
        rcases hab with h | ⟨_, h⟩
        · omega
        · exact h
      have hrest' : lexLe ys xs = true := by
        rcases hba with h | ⟨_, h⟩
        · omega
        · exact h
      rw [hx, ih ys hrest hrest']

theorem strLe_total (s t : String) : strLe s t = true ∨ strLe t s = true :=
  lexLe_total s.data t.data

theorem strLe_trans (s t u : String) :
    strLe s t = true → strLe t u = true → strLe s u = true :=
  lexLe_trans s.data t.data u.data

theorem strLe_antisymm (s t : String) :
    strLe s t = true → strLe t s = true → s = t := by
  intro h1 h2
  obtain ⟨d1⟩ := s
  obtain ⟨d2⟩ := t
  have h3 : d1 = d2 := lexLe_antisymm d1 d2 h1 h2
  rw [h3]

theorem intLe_total (a b : Int) : intLe a b = true ∨ intLe b a = true := by
  simp only [intLe, decide_eq_true_eq]
  exact Int.le_total a b

theorem intLe_trans (a b c : Int) : intLe a b = true → intLe b c = true → intLe a c = true := by
  simp only [intLe, decide_eq_true_eq]
  exact Int.le_trans

theorem intLe_antisymm (a b : Int) : intLe a b = true → intLe b a = true → a = b := by
  simp only [intLe, decide_eq_true_eq]
  exact Int.le_antisymm

theorem sortBy_sorted {α : Type} (le : α → α → Bool)
    (htotal : ∀ a b, le a b = true ∨ le b a = true)
    (htrans : ∀ a b c, le a b = true → le b c = true → le a c = true)
    (l : List α) : SortedLe le (sortBy le l) :=
  @List.sorted_insertionSort α (leRel le) _ ⟨htotal⟩ ⟨htrans⟩ l

theorem sortBy_mem {α : Type} (le : α → α → Bool) (l : List α) (x : α) :
    x ∈ sortBy le l ↔ x ∈ l :=
  List.mem_insertionSort (leRel le)

theorem sortedLe_getD {α : Type} {le : α → α → Bool}
    (htotal : ∀ a b, le a b = true ∨ le b a = true)
    {l : List α} (hs : SortedLe le l) (i j : Nat) (hij : i ≤ j) (hj : j < l.length)
    (d : α) : le (l.getD i d) (l.getD j d) = true := by
  have hi : i < l.length := Nat.lt_of_le_of_lt hij hj
  rw [List.getD_eq_get?, List.get?_eq_get hi, Option.getD_some]
  rw [List.getD_eq_get?, List.get?_eq_get hj, Option.getD_some]
  rcases Nat.lt_or_ge i j with hlt | hge
  · exact List.pairwise_iff_get.mp hs ⟨i, hi⟩ ⟨j, hj⟩ hlt
  · have : i = j := Nat.le_antisymm hij hge
    subst this
    rcases htotal (l.get ⟨i, hi⟩) (l.get ⟨i, hj⟩) with h | h
    · exact h
    · exact h

/-! ### Correctness of the `sort.Search` loop -/

theorem goSearch_lower (f : Nat → Bool) :
    ∀ (fuel i j : Nat), i ≤ goSearch f fuel i j := by
  intro fuel
  induction fuel with
  | zero => intro i j; exact Nat.le_refl i
  | succ t ih =>
    intro i j
    simp only [goSearch]
    split
    · split
      · exact ih i ((i + j) / 2)
      · have := ih ((i + j) / 2 + 1) j
        omega
    · exact Nat.le_refl i

theorem goSearch_upper (f : Nat → Bool) :
    ∀ (fuel i j : Nat), i ≤ j → goSearch f fuel i j ≤ j := by
  intro fuel
  induction fuel with
  | zero => intro i j h; exact h
  | succ t ih =>
    intro i j hij
    simp only [goSearch]
    split
    · rename_i hlt
      split
      · have := ih i ((i + j) / 2) (by omega)
        omega
      · exact ih ((i + j) / 2 + 1) j (by omega)
    · exact hij

theorem goSearch_below_false (f : Nat → Bool)
    (hmono : ∀ k l, k ≤ l → f l = false → f k = false) :
    ∀ (fuel i j : Nat), j - i ≤ fuel →
      ∀ k, i ≤ k → k < goSearch f fuel i j → f k = false := by
  intro fuel
  induction fuel with
  | zero =>
    intro i j hf k hik hk
    simp only [goSearch] at hk
    omega
  | succ t ih =>
    intro i j hf k hik hk
    simp only [goSearch] at hk
    by_cases hlt : i < j
    · rw [if_pos hlt] at hk
      by_cases hm : f ((i + j) / 2) = true
      · rw [if_pos hm] at hk
        exact ih i ((i + j) / 2) (by omega) k hik hk
      · rw [if_neg hm] at hk
        rcases Nat.lt_or_ge ((i + j) / 2) k with hgt | hle
        · exact ih ((i + j) / 2 + 1) j (by omega) k (by omega) hk
        · exact hmono k ((i + j) / 2) hle (Bool.eq_false_iff.mpr hm)
    · rw [if_neg hlt] at hk
      omega

theorem goSearch_at_true (f : Nat → Bool) :
    ∀ (fuel i j : Nat), j - i ≤ fuel → goSearch f fuel i j < j →
      f (goSearch f fuel i j) = true := by
  intro fuel
  induction fuel with
  | zero =>
    intro i j hf hk
    simp only [goSearch] at hk ⊢
    omega
  | succ t ih =>
    intro i j hf hk
    simp only [goSearch] at hk ⊢
    by_cases hlt : i < j
    · rw [if_pos hlt] at hk ⊢
      by_cases hm : f ((i + j) / 2) = true
      · rw [if_pos hm] at hk ⊢
        have hub := goSearch_upper f t i ((i + j) / 2) (by omega)
        rcases Nat.lt_or_ge (goSearch f t i ((i + j) / 2)) ((i + j) / 2) with h | h
        · exact ih i ((i + j) / 2) (by omega) h
        · have : goSearch f t i ((i + j) / 2) = (i + j) / 2 := by omega
          rw [this]
          exact hm
      · rw [if_neg hm] at hk ⊢
        exact ih ((i + j) / 2 + 1) j (by omega) hk
    · rw [if_neg hlt] at hk
      omega

theorem sortSearch_found {α : Type} (le : α → α → Bool)
    (htotal : ∀ a b, le a b = true ∨ le b a = true)
    (htrans : ∀ a b c, le a b = true → le b c = true → le a c = true)
    (hanti : ∀ a b, le a b = true → le b a = true → a = b)
    (a : List α) (x : α) (hs : SortedLe le a) (hx : x ∈ a) :
    sortSearch le a x < a.length ∧ ∀ d, a.getD (sortSearch le a x) d = x := by
  have hrefl : ∀ y, le y y = true := fun y => (htotal y y).elim id id
  have hmono : ∀ k l, k ≤ l → (le x (a.getD l x)) = false → (le x (a.getD k x)) = false := by
    intro k l hkl hfl
    by_cases hl : l < a.length
    · by_contra hfk
      have hfk' : le x (a.getD k x) = true := Bool.eq_false_iff.not_left.mp hfk
      have hstep : le (a.getD k x) (a.getD l x) = true := sortedLe_getD htotal hs k l hkl hl x
      have := htrans x (a.getD k x) (a.getD l x) hfk' hstep
      rw [this] at hfl
      cases hfl
    · have hdef : a.getD l x = x := List.getD_eq_default a x (by omega)
      rw [hdef, hrefl x] at hfl
      cases hfl
  obtain ⟨n, hget⟩ := List.get_of_mem hx
  have hfn : le x (a.getD n.val x) = true := by
    rw [List.getD_eq_get?, List.get?_eq_get n.isLt, Option.getD_some]
    rw [hget]
    exact hrefl x
  have hub : sortSearch le a x ≤ a.length :=
    goSearch_upper _ a.length 0 a.length (Nat.zero_le _)
  have hnr : ¬ n.val < sortSearch le a x := by
    intro hlt
    have hfalse := goSearch_below_false (fun h => le x (a.getD h x)) hmono a.length 0 a.length
      (by omega) n.val (Nat.zero_le _) hlt
    have hfalse' : le x (a.getD n.val x) = false := hfalse
    rw [hfn] at hfalse'
    cases hfalse'
  have hrlen : sortSearch le a x < a.length := by
    have := n.isLt
    omega
  have hfr : le x (a.getD (sortSearch le a x) x) = true :=
    goSearch_at_true (fun h => le x (a.getD h x)) a.length 0 a.length (by omega) hrlen
  have hle2 : le (a.getD (sortSearch le a x) x) (a.getD n.val x) = true :=
    sortedLe_getD htotal hs _ n.val (by omega) n.isLt x
  have hgn : a.getD n.val x = x := by
    rw [List.getD_eq_get?, List.get?_eq_get n.isLt, Option.getD_some, hget]
  rw [hgn] at hle2
  have heq : x = a.getD (sortSearch le a x) x := hanti x _ hfr hle2
  refine ⟨hrlen, fun d => ?_⟩
  rw [List.getD_eq_get?, List.get?_eq_get hrlen, Option.getD_some]
  rw [List.getD_eq_get?, List.get?_eq_get hrlen, Option.getD_some] at heq
  exact heq.symm

theorem sortSearch_beq_iff {α : Type} [BEq α] [LawfulBEq α] (le : α → α → Bool)
    (htotal : ∀ a b, le a b = true ∨ le b a = true)
    (htrans : ∀ a b c, le a b = true → le b c = true → le a c = true)
    (hanti : ∀ a b, le a b = true → le b a = true → a = b)
    (a : List α) (x d : α) (hs : SortedLe le a) :
    ((decide (sortSearch le a x < a.length)) && (a.getD (sortSearch le a x) d == x)) = true
      ↔ x ∈ a := by
  rw [Bool.and_eq_true]
  constructor
  · rintro ⟨h1, h2⟩
    have hlt : sortSearch le a x < a.length := of_decide_eq_true h1
    have hgd : a.getD (sortSearch le a x) d = x := eq_of_beq h2
    rw [List.getD_eq_get?, List.get?_eq_get hlt, Option.getD_some] at hgd
    rw [← hgd]
    exact List.get_mem a _ hlt
  · intro hx
    obtain ⟨hlt, hgd⟩ := sortSearch_found le htotal htrans hanti a x hs hx
    exact ⟨decide_eq_true hlt, beq_iff_eq.mpr (hgd d)⟩

/-! ### The association-list model of the Go map -/

theorem mapInsert_nil (k : String) (v : HDBItem) : mapInsert [] k v = [(k, v)] := rfl

theorem mapInsert_cons (p : String × HDBItem) (rest : List (String × HDBItem))
    (k : String) (v : HDBItem) :
    mapInsert (p :: rest) k v =
      if p.1 = k then (k, v) :: rest else p :: mapInsert rest k v := rfl

theorem mapLookup_nil (k : String) : mapLookup [] k = none := rfl

theorem mapLookup_cons (p : String × HDBItem) (rest : List (String × HDBItem)) (k : String) :
    mapLookup (p :: rest) k = if p.1 = k then some p.2 else mapLookup rest k := rfl

theorem mapLookup_insert_self (m : List (String × HDBItem)) (k : String) (v : HDBItem) :
    mapLookup (mapInsert m k v) k = some v := by
  induction m with
  | nil => rw [mapInsert_nil, mapLookup_cons, if_pos rfl]
  | cons p rest ih =>
    rw [mapInsert_cons]
    by_cases hp : p.1 = k
    · rw [if_pos hp, mapLookup_cons, if_pos rfl]
    · rw [if_neg hp, mapLookup_cons, if_neg hp, ih]

theorem mapLookup_insert_ne (m : List (String × HDBItem)) (k k' : String) (v : HDBItem)
    (h : k' ≠ k) : mapLookup (mapInsert m k v) k' = mapLookup m k' := by
  have hkk : ¬ ((k, v).1 = k') := fun hh => h hh.symm
  induction m with
  | nil => rw [mapInsert_nil, mapLookup_cons, if_neg hkk, mapLookup_nil]
  | cons p rest ih =>
    rw [mapInsert_cons]
    by_cases hp : p.1 = k
    · rw [if_pos hp, mapLookup_cons, if_neg hkk]
      have hp' : ¬ (p.1 = k') := by
        rw [hp]
        exact fun hh => h hh.symm
      rw [mapLookup_cons, if_neg hp']
    · rw [if_neg hp, mapLookup_cons, mapLookup_cons, ih]

theorem mapInsert_keys_subset (m : List (String × HDBItem)) (k : String) (v : HDBItem) :
    ∀ x ∈ (mapInsert m k v).map Prod.fst, x = k ∨ x ∈ m.map Prod.fst := by
  induction m with
  | nil =>
    intro x hx
    rw [mapInsert_nil, List.map_cons] at hx
    rcases List.mem_cons.mp hx with h | h
    · exact Or.inl h
    · cases h
  | cons p rest ih =>
    intro x hx
    rw [mapInsert_cons] at hx
    by_cases hp : p.1 = k
    · rw [if_pos hp, List.map_cons] at hx
      rcases List.mem_cons.mp hx with h | h
      · exact Or.inl h
      · refine Or.inr ?_
        rw [List.map_cons]
        exact List.mem_cons.mpr (Or.inr h)
    · rw [if_neg hp, List.map_cons] at hx
      rcases List.mem_cons.mp hx with h | h
      · refine Or.inr ?_
        rw [List.map_cons]
        exact List.mem_cons.mpr (Or.inl h)
      · rcases ih x h with h' | h'
        · exact Or.inl h'
        · refine Or.inr ?_
          rw [List.map_cons]
          exact List.mem_cons.mpr (Or.inr h')

theorem mapInsert_keys_nodup (m : List (String × HDBItem)) (k : String) (v : HDBItem)
    (h : (m.map Prod.fst).Nodup) : ((mapInsert m k v).map Prod.fst).Nodup := by
  induction m with
  | nil =>
    rw [mapInsert_nil, List.map_cons]
    exact List.nodup_cons.mpr ⟨by simp, List.nodup_nil⟩
  | cons p rest ih =>
    rw [List.map_cons, List.nodup_cons] at h
    rw [mapInsert_cons]
    by_cases hp : p.1 = k
    · rw [if_pos hp, List.map_cons, List.nodup_cons]
      exact ⟨hp ▸ h.1, h.2⟩
    · rw [if_neg hp, List.map_cons, List.nodup_cons]
      refine ⟨?_, ih h.2⟩
      intro hmem
      rcases mapInsert_keys_subset rest k v p.1 hmem with h' | h'
      · exact hp h'
      · exact h.1 h'

/-! ### The Bloom filter never produces false negatives -/

theorem bloomTest_mono (bf : BloomFilter) (s t : String) :
    bloomTestString bf s = true → bloomTestString (bloomAddString bf t) s = true := by
  intro h
  rw [bloomTestString, List.all_eq_true] at h ⊢
  intro f hf
  have hmem : (f s % bf.m) ∈ bf.bits := List.mem_of_elem_eq_true (h f hf)
  show ((bf.bits ++ bf.hashFuns.map (fun g => g t % bf.m)).elem (f s % bf.m)) = true
  exact List.elem_eq_true_of_mem (List.mem_append_left _ hmem)

theorem bloomTest_add_self (bf : BloomFilter) (s : String) :
    ∀ f ∈ bf.hashFuns, ((bloomAddString bf s).bits.contains (f s % bf.m)) = true := by
  intro f hf
  show ((bf.bits ++ bf.hashFuns.map (fun g => g s % bf.m)).elem (f s % bf.m)) = true
  exact List.elem_eq_true_of_mem
    (List.mem_append_right _ (List.mem_map.mpr ⟨f, hf, rfl⟩))

theorem bloomTest_foldl_mono (l : List String) (bf : BloomFilter) (s : String)
    (h : bloomTestString bf s = true) :
    bloomTestString (l.foldl bloomAddString bf) s = true := by
  induction l generalizing bf with
  | nil => exact h
  | cons t ts ih =>
    exact ih (bloomAddString bf t) (bloomTest_mono bf s t h)

theorem bloomTest_foldl_self (l : List String) (bf : BloomFilter) (s : String)
    (hs : s ∈ l) : bloomTestString (l.foldl bloomAddString bf) s = true := by
  induction l generalizing bf with
  | nil => cases hs
  | cons t ts ih =>

    rcases List.mem_cons.mp hs with h | h
    · subst h
      refine bloomTest_foldl_mono ts (bloomAddString bf s) s ?_
      rw [bloomTestString, List.all_eq_true]
      intro f hf
      exact bloomTest_add_self bf s f hf
    · exact ih (bloomAddString bf t) h

/-! ### Per-line effect of the loader -/

theorem addHdbRecord_ok_inv (db : DB) (values : List String) (n : Int) (d' : DB)
    (h : addHdbRecord db values n = .ok d') :
    ∃ v0 v2, values.get? 0 = some v0 ∧ values.get? 2 = some v2 ∧
      d' = { db with
              hashes := db.hashes ++ [v0]
              sizes := db.sizes ++ [n]
              hashToItem := mapInsert db.hashToItem v0 ⟨v0, hashTypeOf v0, n, v2, ("")⟩ } := by
  unfold addHdbRecord at h
  cases h0 : values.get? 0 with
  | none =>
    rw [h0] at h
    cases h
  | some v0 =>
    rw [h0] at h
    cases h2 : values.get? 2 with
    | none =>
      rw [h2] at h
      cases h
    | some v2 =>
      rw [h2] at h
      cases h
      exact ⟨v0, v2, rfl, rfl, rfl⟩

theorem addHdbRecord_inv2 (db : DB) (values : List String) (n : Int) (d' : DB)
    (h : addHdbRecord db values n = .ok d') :
    d'.useBloom = db.useBloom ∧ d'.unknownSizeAction = db.unknownSizeAction ∧
    d'.bloomM = db.bloomM ∧ d'.bloomHashFuns = db.bloomHashFuns ∧
    d'.bloomFilter = db.bloomFilter ∧ d'.sizeAlwaysTrue = db.sizeAlwaysTrue ∧
    d'.sizes = db.sizes ++ [n] ∧ (∀ x ∈ db.hashes, x ∈ d'.hashes) ∧
    ((db.hashToItem.map Prod.fst).Nodup → (d'.hashToItem.map Prod.fst).Nodup) := by
  obtain ⟨v0, v2, h0, h2, hd⟩ := addHdbRecord_ok_inv db values n d' h
  subst hd
  refine ⟨rfl, rfl, rfl, rfl, rfl, rfl, rfl, ?_, ?_⟩
  · intro x hx
    exact List.mem_append_left _ hx
  · intro hn
    exact mapInsert_keys_nodup _ _ _ hn

theorem processHdbLine_ok_inv (db : DB) (s : String) (d' : DB)
    (h : processHdbLine db s = .ok d') :
    d'.useBloom = db.useBloom ∧
    d'.unknownSizeAction = db.unknownSizeAction ∧
    d'.bloomM = db.bloomM ∧
    d'.bloomHashFuns = db.bloomHashFuns ∧
    d'.bloomFilter = db.bloomFilter ∧
    (db.sizeAlwaysTrue = true → d'.sizeAlwaysTrue = true) ∧
    d'.sizes = db.sizes ++ lineSizeContrib db.unknownSizeAction (SigLine.hdb s) ∧
    (∀ x ∈ db.hashes, x ∈ d'.hashes) ∧
    ((db.hashToItem.map Prod.fst).Nodup → (d'.hashToItem.map Prod.fst).Nodup) := by
  by_cases hlen : s.length > 0
  · cases h1 : (splitChar ':' s).get? 1 with
    | none =>
      simp only [processHdbLine, if_pos hlen, h1] at h
      cases h
    | some v1 =>
      simp only [processHdbLine, if_pos hlen, h1] at h
      by_cases hw : v1 = ("*")
      · rw [if_pos hw] at h
        by_cases ha1 : db.unknownSizeAction = 1
        · rw [if_pos ha1] at h
          have hne : ¬ (db.unknownSizeAction = 0) := by omega
          have h1' : (splitChar ':' s)[1]? = some v1 := by
            rw [← List.get?_eq_getElem?]
            exact h1
          have hc : lineSizeContrib db.unknownSizeAction (SigLine.hdb s) = [(-1 : Int)] := by
            simp [lineSizeContrib, hlen, h1', hw, hne]
          obtain ⟨e1, e2, e3, e4, e5, e6, e7, e8, e9⟩ :=
            addHdbRecord_inv2 { db with sizeAlwaysTrue := true } _ _ _ h
          rw [hc]
          exact ⟨e1, e2, e3, e4, e5, fun _ => e6, e7, e8, e9⟩
        · rw [if_neg ha1] at h
          by_cases ha0 : db.unknownSizeAction = 0
          · rw [if_pos ha0] at h
            cases h
            have h1' : (splitChar ':' s)[1]? = some v1 := by
              rw [← List.get?_eq_getElem?]
              exact h1
            have hc : lineSizeContrib db.unknownSizeAction (SigLine.hdb s) = [] := by
              simp [lineSizeContrib, hlen, h1', hw, ha0]
            rw [hc]
            exact ⟨rfl, rfl, rfl, rfl, rfl, fun hx => hx, by simp, fun x hx => hx, fun hn => hn⟩
          · rw [if_neg ha0] at h
            have h1' : (splitChar ':' s)[1]? = some v1 := by
              rw [← List.get?_eq_getElem?]
              exact h1
            have hc : lineSizeContrib db.unknownSizeAction (SigLine.hdb s) = [(-1 : Int)] := by
              simp [lineSizeContrib, hlen, h1', hw, ha0]
            obtain ⟨e1, e2, e3, e4, e5, e6, e7, e8, e9⟩ := addHdbRecord_inv2 db _ _ _ h
            rw [hc]
            refine ⟨e1, e2, e3, e4, e5, ?_, e7, e8, e9⟩
            intro hx
            rw [e6]
            exact hx
      · rw [if_neg hw] at h
        cases hp : parseInt64 v1 with
        | none =>
          rw [hp] at h
          cases h
        | some n =>
          rw [hp] at h
          have h1' : (splitChar ':' s)[1]? = some v1 := by
            rw [← List.get?_eq_getElem?]
            exact h1
          have hc : lineSizeContrib db.unknownSizeAction (SigLine.hdb s) = [n] := by
            simp [lineSizeContrib, hlen, h1', hw, hp]
          obtain ⟨e1, e2, e3, e4, e5, e6, e7, e8, e9⟩ := addHdbRecord_inv2 db _ _ _ h
          rw [hc]
          refine ⟨e1, e2, e3, e4, e5, ?_, e7, e8, e9⟩
          intro hx
          rw [e6]
          exact hx
  · simp only [processHdbLine, if_neg hlen] at h
    cases h
    have hc : lineSizeContrib db.unknownSizeAction (SigLine.hdb s) = [] := by
      simp [lineSizeContrib, hlen]
    rw [hc]
    exact ⟨rfl, rfl, rfl, rfl, rfl, fun hx => hx, by simp, fun x hx => hx, fun hn => hn⟩

theorem processCsvLine_ok_inv (db : DB) (s : String) (d' : DB)
    (h : processCsvLine db s = .ok d') :
    d'.useBloom = db.useBloom ∧
    d'.unknownSizeAction = db.unknownSizeAction ∧
    d'.bloomM = db.bloomM ∧
    d'.bloomHashFuns = db.bloomHashFuns ∧
    d'.bloomFilter = db.bloomFilter ∧
    (db.sizeAlwaysTrue = true → d'.sizeAlwaysTrue = true) ∧
    d'.sizes = db.sizes ++ lineSizeContrib db.unknownSizeAction (SigLine.csv s) ∧
    (∀ x ∈ db.hashes, x ∈ d'.hashes) ∧
    ((db.hashToItem.map Prod.fst).Nodup → (d'.hashToItem.map Prod.fst).Nodup) := by
  by_cases hlen : s.length > 0
  · cases h2 : (splitChar ',' s).get? 2 with
    | none =>
      simp only [processCsvLine, if_pos hlen, h2] at h
      cases h
    | some v2 =>
      simp only [processCsvLine, if_pos hlen, h2] at h
      cases hp : parseInt64 v2 with
      | none =>
        rw [hp] at h
        cases h
      | some n =>
        rw [hp] at h
        have h2' : (splitChar ',' s)[2]? = some v2 := by
          rw [← List.get?_eq_getElem?]
          exact h2
        have hc : lineSizeContrib db.unknownSizeAction (SigLine.csv s) = [n] := by
          simp [lineSizeContrib, hlen, h2', hp]
        rw [hc]
        cases h0 : (splitChar ',' s).get? 0 with
        | none =>
          rw [h0] at h
          cases h
        | some v0 =>
          rw [h0] at h
          cases hq1 : (splitChar ',' s).get? 1 with
          | none =>
            rw [hq1] at h
            cases h
          | some w1 =>
            rw [hq1] at h
            cases hq3 : (splitChar ',' s).get? 3 with
            | none =>
              rw [hq3] at h
              cases h
            | some w3 =>
              rw [hq3] at h
              cases hq4 : (splitChar ',' s).get? 4 with
              | none =>
                rw [hq4] at h
                cases h
              | some w4 =>
                rw [hq4] at h
                cases h
                refine ⟨rfl, rfl, rfl, rfl, rfl, fun hx => hx, rfl, ?_, ?_⟩
                · intro x hx
                  exact List.mem_append_left _ hx
                · intro hn
                  exact mapInsert_keys_nodup _ _ _ hn
  · simp only [processCsvLine, if_neg hlen] at h
    cases h
    have hc : lineSizeContrib db.unknownSizeAction (SigLine.csv s) = [] := by
      simp [lineSizeContrib, hlen]
    rw [hc]
    exact ⟨rfl, rfl, rfl, rfl, rfl, fun hx => hx, by simp, fun x hx => hx, fun hn => hn⟩

theorem processLine_ok_inv (db : DB) (l : SigLine) (d' : DB)
    (h : processLine db l = .ok d') :
    d'.useBloom = db.useBloom ∧
    d'.unknownSizeAction = db.unknownSizeAction ∧
    d'.bloomM = db.bloomM ∧
    d'.bloomHashFuns = db.bloomHashFuns ∧
    d'.bloomFilter = db.bloomFilter ∧
    (db.sizeAlwaysTrue = true → d'.sizeAlwaysTrue = true) ∧
    d'.sizes = db.sizes ++ lineSizeContrib db.unknownSizeAction l ∧
    (∀ x ∈ db.hashes, x ∈ d'.hashes) ∧
    ((db.hashToItem.map Prod.fst).Nodup → (d'.hashToItem.map Prod.fst).Nodup) := by
  cases l with
  | hdb s => exact processHdbLine_ok_inv db s d' h
  | csv s => exact processCsvLine_ok_inv db s d' h

/-! ### The whole walk -/

theorem processLines_cons_ok (db : DB) (l : SigLine) (ls : List SigLine) (d : DB)
    (h : processLines db (l :: ls) = .ok d) :
    ∃ d1, processLine db l = .ok d1 ∧ processLines d1 ls = .ok d := by
  unfold processLines at h
  cases hl : processLine db l with
  | ok d1 =>
    rw [hl] at h
    exact ⟨d1, rfl, h⟩
  | err m dd =>
    rw [hl] at h
    cases h
  | panic m dd =>
    rw [hl] at h
    cases h

theorem processLines_append_ok (db : DB) (xs ys : List SigLine) (dm d : DB)
    (h1 : processLines db xs = .ok dm) (h2 : processLines dm ys = .ok d) :
    processLines db (xs ++ ys) = .ok d := by
  induction xs generalizing db with
  | nil =>
    cases h1
    exact h2
  | cons l ls ih =>
    obtain ⟨d1, hl, hrest⟩ := processLines_cons_ok db l ls dm h1
    show processLines db (l :: (ls ++ ys)) = .ok d
    unfold processLines
    rw [hl]
    exact ih d1 hrest

theorem processLines_ok_inv : ∀ (lines : List SigLine) (db d : DB),
    processLines db lines = .ok d →
    d.useBloom = db.useBloom ∧
    d.unknownSizeAction = db.unknownSizeAction ∧
    d.bloomM = db.bloomM ∧
    d.bloomHashFuns = db.bloomHashFuns ∧
    d.bloomFilter = db.bloomFilter ∧
    (db.sizeAlwaysTrue = true → d.sizeAlwaysTrue = true) ∧
    d.sizes = db.sizes ++ (lines.map (lineSizeContrib db.unknownSizeAction)).flatten ∧
    (∀ x ∈ db.hashes, x ∈ d.hashes) ∧
    ((db.hashToItem.map Prod.fst).Nodup → (d.hashToItem.map Prod.fst).Nodup) := by
  intro lines
  induction lines with
  | nil =>
    intro db d h
    cases h
    exact ⟨rfl, rfl, rfl, rfl, rfl, fun hx => hx, by simp, fun x hx => hx, fun hn => hn⟩
  | cons l ls ih =>
    intro db d h
    obtain ⟨d1, hl, hrest⟩ := processLines_cons_ok db l ls d h
    obtain ⟨e1, e2, e3, e4, e5, e6, e7, e8, e9⟩ := processLine_ok_inv db l d1 hl
    obtain ⟨f1, f2, f3, f4, f5, f6, f7, f8, f9⟩ := ih d1 d hrest
    refine ⟨f1.trans e1, f2.trans e2, f3.trans e3, f4.trans e4, f5.trans e5,
      fun hx => f6 (e6 hx), ?_, fun x hx => f8 x (e8 x hx), fun hn => f9 (e9 hn)⟩
    rw [f7, e7, e2, List.map_cons, List.flatten_cons, List.append_assoc]

theorem loadSigs_ok_inv (db : DB) (lines : List SigLine) (d : DB)
    (h : loadSigs db lines = .ok d) :
    ∃ dm, processLines db lines = .ok dm ∧ d = sortDB dm := by
  unfold loadSigs at h
  cases hm : processLines db lines with
  | ok dm =>
    rw [hm] at h
    cases h
    exact ⟨dm, rfl, rfl⟩
  | err m dd =>
    rw [hm] at h
    cases h
  | panic m dd =>
    rw [hm] at h
    cases h

theorem sortBy_sorted_str (l : List String) : SortedLe strLe (sortBy strLe l) :=
  sortBy_sorted strLe strLe_total strLe_trans l

theorem sortBy_sorted_int (l : List Int) : SortedLe intLe (sortBy intLe l) :=
  sortBy_sorted intLe intLe_total intLe_trans l

/-- Everything a successful `LoadSigs` guarantees about the resulting state:
both index sequences are sorted, the configuration fields are untouched, the
disable-size-checks switch is never reset, the sizes are exactly the
accumulated per-line contributions, no hash is lost, and map keys stay
unique. -/
theorem loadSigs_ok_props (db : DB) (lines : List SigLine) (d : DB)
    (h : loadSigs db lines = .ok d) :
    SortedLe strLe d.hashes ∧ SortedLe intLe d.sizes ∧
    d.useBloom = db.useBloom ∧
    d.unknownSizeAction = db.unknownSizeAction ∧
    d.bloomM = db.bloomM ∧
    d.bloomHashFuns = db.bloomHashFuns ∧
    d.bloomFilter = db.bloomFilter ∧
    (db.sizeAlwaysTrue = true → d.sizeAlwaysTrue = true) ∧
    d.sizes = sortBy intLe (db.sizes ++ (lines.map (lineSizeContrib db.unknownSizeAction)).flatten) ∧
    (∀ x ∈ db.hashes, x ∈ d.hashes) ∧
    ((db.hashToItem.map Prod.fst).Nodup → (d.hashToItem.map Prod.fst).Nodup) := by
  obtain ⟨dm, hm, hd⟩ := loadSigs_ok_inv db lines d h
  obtain ⟨e1, e2, e3, e4, e5, e6, e7, e8, e9⟩ := processLines_ok_inv lines db dm hm
  subst hd
  refine ⟨sortBy_sorted_str dm.hashes, sortBy_sorted_int dm.sizes, e1, e2, e3, e4, e5,
    e6, ?_, ?_, e9⟩
  · show sortBy intLe dm.sizes = _
    rw [e7]
  · intro x hx
    show x ∈ sortBy strLe dm.hashes
    rw [sortBy_mem]
    exact e8 x hx

/-! ### Evaluating the query methods -/

theorem hasSigWithHash_mem (db : DB) (hb : db.useBloom = false)
    (hs : SortedLe strLe db.hashes) (hash : String) :
    hasSigWithHash db hash = .ok (decide (hash ∈ db.hashes)) none db := by
  unfold hasSigWithHash
  rw [hb]
  rw [if_neg (by simp)]
  have hiff := sortSearch_beq_iff strLe strLe_total strLe_trans strLe_antisymm
    db.hashes hash ("") hs
  have hbool :
      ((decide (sortSearch strLe db.hashes hash < db.hashes.length)) &&
        (db.hashes.getD (sortSearch strLe db.hashes hash) ("") == hash)) =
        decide (hash ∈ db.hashes) := by
    rw [Bool.eq_iff_iff, decide_eq_true_eq]
    exact hiff
  show QueryRes.ok ((decide (sortSearch strLe db.hashes hash < db.hashes.length)) &&
      (db.hashes.getD (sortSearch strLe db.hashes hash) ("") == hash)) none db =
    QueryRes.ok (decide (hash ∈ db.hashes)) none db
  rw [hbool]

theorem hasSigWithSize_flagTrue (db : DB) (hf : db.sizeAlwaysTrue = true) (n : Int) :
    hasSigWithSize db n = .ok true none db := by
  unfold hasSigWithSize
  rw [if_pos hf]

theorem hasSigWithSize_eval (db : DB) (hs : SortedLe intLe db.sizes) (n : Int) :
    hasSigWithSize db n = .ok (decide (db.sizeAlwaysTrue = true ∨ n ∈ db.sizes)) none db := by
  unfold hasSigWithSize
  by_cases hf : db.sizeAlwaysTrue
  · rw [if_pos hf]
    have hd : decide (db.sizeAlwaysTrue = true ∨ n ∈ db.sizes) = true := by
      simp [hf]
    rw [hd]
  · rw [if_neg hf]
    have hiff := sortSearch_beq_iff intLe intLe_total intLe_trans intLe_antisymm
      db.sizes n 0 hs
    have hbool :
        ((decide (sortSearch intLe db.sizes n < db.sizes.length)) &&
          (db.sizes.getD (sortSearch intLe db.sizes n) 0 == n)) =
          decide (db.sizeAlwaysTrue = true ∨ n ∈ db.sizes) := by
      rw [Bool.eq_iff_iff, decide_eq_true_eq]
      constructor
      · intro hx
        exact Or.inr (hiff.mp hx)
      · intro hx
        rcases hx with hx | hx
        · exact absurd hx hf
        · exact hiff.mpr hx
    show QueryRes.ok ((decide (sortSearch intLe db.sizes n < db.sizes.length)) &&
        (db.sizes.getD (sortSearch intLe db.sizes n) 0 == n)) none db = _
    rw [hbool]

/-! ### The disable-size-checks switch -/

theorem processHdbLine_wildcard_flag (db : DB) (s : String) (d' : DB)
    (ha : db.unknownSizeAction = 1)
    (hw : (splitChar ':' s).get? 1 = some ("*"))
    (h : processHdbLine db s = .ok d') :
    d'.sizeAlwaysTrue = true := by
  by_cases hlen : s.length > 0
  · simp only [processHdbLine, if_pos hlen, hw, if_true] at h
    rw [if_pos ha] at h
    obtain ⟨e1, e2, e3, e4, e5, e6, e7, e8, e9⟩ :=
      addHdbRecord_inv2 { db with sizeAlwaysTrue := true } _ _ _ h
    exact e6
  · exfalso
    have hs0 : s.data = [] := by
      have hl0 : s.data.length = 0 := by
        have : s.length = s.data.length := rfl
        omega
      exact List.length_eq_zero.mp hl0
    rw [splitChar, hs0] at hw
    simp [splitCharAux] at hw

theorem processLines_wildcard_flag : ∀ (lines : List SigLine) (db d : DB) (s : String),
    db.unknownSizeAction = 1 →
    processLines db lines = .ok d →
    SigLine.hdb s ∈ lines →
    (splitChar ':' s).get? 1 = some ("*") →
    d.sizeAlwaysTrue = true := by
  intro lines
  induction lines with
  | nil =>
    intro db d s _ _ hmem _
    cases hmem
  | cons l ls ih =>
    intro db d s ha h hmem hw
    obtain ⟨d1, hl, hrest⟩ := processLines_cons_ok db l ls d h
    rcases List.mem_cons.mp hmem with heq | hmem'
    · have hflag : d1.sizeAlwaysTrue = true := by
        rw [← heq] at hl
        exact processHdbLine_wildcard_flag db s d1 ha hw hl
      obtain ⟨f1, f2, f3, f4, f5, f6, f7, f8, f9⟩ := processLines_ok_inv ls d1 d hrest
      exact f6 hflag
    · obtain ⟨e1, e2, e3, e4, e5, e6, e7, e8, e9⟩ := processLine_ok_inv db l d1 hl
      exact ih d1 d s (e2.trans ha) hrest hmem' hw

/-! ### Claims -/

/-- C1: after a completed load (`LoadSigs` then `LoadBloom`), every hash that
was loaded from a signature file is reported present by `HasSigWithHash` —
via binary search over the sorted hashes when the pre-filter is disabled,
and via the Bloom filter (which has no false negatives for added elements,
for every choice of filter parameters) when it is enabled. -/
theorem C1_hasHash_no_false_negatives (db0 : DB) (lines : List SigLine) (db1 : DB)
    (h : String) (hload : loadSigs db0 lines = .ok db1) (hmem : h ∈ db1.hashes) :
    hasSigWithHash (loadBloom db1) h = .ok true none (loadBloom db1) := by
  obtain ⟨hsortH, hsortS, e1, e2, e3, e4, e5, e6, e7, e8, e9⟩ :=
    loadSigs_ok_props db0 lines db1 hload
  unfold loadBloom
  by_cases hb : db1.useBloom
  · rw [if_pos hb]
    unfold hasSigWithHash
    rw [if_pos hb]
    show QueryRes.ok
        (bloomTestString
          (db1.hashes.foldl bloomAddString
            { bits := [], hashFuns := db1.bloomHashFuns, m := db1.bloomM }) h) none _ = _
    rw [bloomTest_foldl_self db1.hashes
      { bits := [], hashFuns := db1.bloomHashFuns, m := db1.bloomM } h hmem]
  · rw [if_neg hb]
    have hb' : db1.useBloom = false := Bool.eq_false_iff.mpr hb
    rw [hasSigWithHash_mem db1 hb' hsortH h]
    rw [decide_eq_true hmem]

/-- C2: with the pre-filter disabled, after a completed load
`HasSigWithHash` answers exact membership in the loaded hash sequence: true
precisely for the loaded hashes, false for every hash never added. -/
theorem C2_hasHash_exact_iff (db0 : DB) (lines : List SigLine) (db1 : DB) (h : String)
    (hload : loadSigs db0 lines = .ok db1) (hb : db1.useBloom = false) :
    ∃ b, hasSigWithHash db1 h = .ok b none db1 ∧ (b = true ↔ h ∈ db1.hashes) := by
  obtain ⟨hsortH, hsortS, e1, e2, e3, e4, e5, e6, e7, e8, e9⟩ :=
    loadSigs_ok_props db0 lines db1 hload
  refine ⟨decide (h ∈ db1.hashes), hasSigWithHash_mem db1 hb hsortH h, ?_⟩
  simp

/-- C3: after a completed load, `HasSigWithSize n` is true exactly when the
disable-size-checks switch is tripped or `n` occurs in the sorted sizes
sequence. -/
theorem C3_hasSize_iff (db0 : DB) (lines : List SigLine) (db1 : DB) (n : Int)
    (hload : loadSigs db0 lines = .ok db1) :
    ∃ b, hasSigWithSize db1 n = .ok b none db1 ∧
      (b = true ↔ (db1.sizeAlwaysTrue = true ∨ n ∈ db1.sizes)) := by
  obtain ⟨hsortH, hsortS, e1, e2, e3, e4, e5, e6, e7, e8, e9⟩ :=
    loadSigs_ok_props db0 lines db1 hload
  refine ⟨decide (db1.sizeAlwaysTrue = true ∨ n ∈ db1.sizes),
    hasSigWithSize_eval db1 hsortS n, ?_⟩
  simp

/-- C4: under `UnknownSizeAction = 1`, once any wildcard-size record in any
file has been parsed, the switch is set in the loaded database — no later
parsing step reset it — and every subsequent `HasSigWithSize` query returns
true (leaving the state unchanged), for every integer argument. -/
theorem C4_wildcard_switch_monotone (db0 : DB) (lines : List SigLine) (db1 : DB)
    (s : String)
    (ha : db0.unknownSizeAction = 1)
    (hload : loadSigs db0 lines = .ok db1)
    (hmem : SigLine.hdb s ∈ lines)
    (hw : (splitChar ':' s).get? 1 = some ("*")) :
    db1.sizeAlwaysTrue = true ∧ ∀ n : Int, hasSigWithSize db1 n = .ok true none db1 := by
  obtain ⟨dm, hm, hd⟩ := loadSigs_ok_inv db0 lines db1 hload
  have hflag : dm.sizeAlwaysTrue = true :=
    processLines_wildcard_flag lines db0 dm s ha hm hmem hw
  have hflag1 : db1.sizeAlwaysTrue = true := by
    rw [hd]
    exact hflag
  exact ⟨hflag1, fun n => hasSigWithSize_flagTrue db1 hflag1 n⟩

theorem splitChar_three_nonempty (c : Char) (t a b d : String)
    (h : splitChar c t = [a, b, d]) : t.length > 0 := by
  by_contra hlen
  have hs0 : t.data = [] := by
    have hl0 : t.data.length = 0 := by
      have heq : t.length = t.data.length := rfl
      omega
    exact List.length_eq_zero.mp hl0
  rw [splitChar, hs0] at h
  simp [splitCharAux] at h

/-- Processing one well-formed numeric `.hdb` record line. -/
theorem processHdbLine_record (db : DB) (t hsh sz lab : String) (n : Int)
    (hsplit : splitChar ':' t = [hsh, sz, lab])
    (hw : sz ≠ ("*")) (hp : parseInt64 sz = some n) :
    processHdbLine db t = .ok { db with
      hashes := db.hashes ++ [hsh]
      sizes := db.sizes ++ [n]
      hashToItem := mapInsert db.hashToItem hsh ⟨hsh, hashTypeOf hsh, n, lab, ("")⟩ } := by
  have hlen := splitChar_three_nonempty ':' t hsh sz lab hsplit
  simp only [processHdbLine, if_pos hlen, hsplit, List.get?_cons_succ, List.get?_cons_zero]
  rw [if_neg hw, hp]
  rfl

/-- Processing one wildcard-size `.hdb` record line under a policy value
other than 0 and 1. -/
theorem processHdbLine_wildcard_record (db : DB) (t hsh lab : String)
    (hsplit : splitChar ':' t = [hsh, ("*"), lab])
    (ha1 : ¬ (db.unknownSizeAction = 1)) (ha0 : ¬ (db.unknownSizeAction = 0)) :
    processHdbLine db t = .ok { db with
      hashes := db.hashes ++ [hsh]
      sizes := db.sizes ++ [(-1 : Int)]
      hashToItem := mapInsert db.hashToItem hsh ⟨hsh, hashTypeOf hsh, -1, lab, ("")⟩ } := by
  have hlen := splitChar_three_nonempty ':' t hsh ("*") lab hsplit
  simp only [processHdbLine, if_pos hlen, hsplit, List.get?_cons_succ, List.get?_cons_zero,
    if_true]
  rw [if_neg ha1, if_neg ha0]
  rfl

/-- C7: loading two records with the same hash (and different labels) does
not fail: after the load the hash has exactly one entry in the map — the
last-parsed record's label and comment (last-write-wins) — and the hash is
still present in the sorted hashes, where `HasSigWithHash` finds it. -/
theorem C7_duplicate_hash_last_write_wins (db0 : DB) (pre : List SigLine) (dpre : DB)
    (t1 t2 hsh s1 s2 labA labB : String) (n1 n2 : Int)
    (hpre : processLines db0 pre = .ok dpre)
    (hkeys : (db0.hashToItem.map Prod.fst).Nodup)
    (hb : db0.useBloom = false)
    (h1 : splitChar ':' t1 = [hsh, s1, labA])
    (h2 : splitChar ':' t2 = [hsh, s2, labB])
    (hs1 : s1 ≠ ("*")) (hs2 : s2 ≠ ("*"))
    (hp1 : parseInt64 s1 = some n1) (hp2 : parseInt64 s2 = some n2)
    (hlab : labA ≠ labB) :
    ∃ db1, loadSigs db0 (pre ++ [SigLine.hdb t1, SigLine.hdb t2]) = .ok db1 ∧
      mapLookup db1.hashToItem hsh = some ⟨hsh, hashTypeOf hsh, n2, labB, ("")⟩ ∧
      (db1.hashToItem.map Prod.fst).Nodup ∧
      hsh ∈ db1.hashes ∧
      hasSigWithHash db1 hsh = .ok true none db1 := by
  obtain ⟨e1, e2, e3, e4, e5, e6, e7, e8, e9⟩ := processLines_ok_inv pre db0 dpre hpre
  have st1 : processLine dpre (SigLine.hdb t1) = .ok { dpre with
      hashes := dpre.hashes ++ [hsh]
      sizes := dpre.sizes ++ [n1]
      hashToItem := mapInsert dpre.hashToItem hsh ⟨hsh, hashTypeOf hsh, n1, labA, ("")⟩ } :=
    processHdbLine_record dpre t1 hsh s1 labA n1 h1 hs1 hp1
  set da : DB := { dpre with
      hashes := dpre.hashes ++ [hsh]
      sizes := dpre.sizes ++ [n1]
      hashToItem := mapInsert dpre.hashToItem hsh ⟨hsh, hashTypeOf hsh, n1, labA, ("")⟩ }
    with hda
  have st2 : processLine da (SigLine.hdb t2) = .ok { da with
      hashes := da.hashes ++ [hsh]
      sizes := da.sizes ++ [n2]
      hashToItem := mapInsert da.hashToItem hsh ⟨hsh, hashTypeOf hsh, n2, labB, ("")⟩ } :=
    processHdbLine_record da t2 hsh s2 labB n2 h2 hs2 hp2
  set dbb : DB := { da with
      hashes := da.hashes ++ [hsh]
      sizes := da.sizes ++ [n2]
      hashToItem := mapInsert da.hashToItem hsh ⟨hsh, hashTypeOf hsh, n2, labB, ("")⟩ }
    with hdb2
  have htail : processLines dpre [SigLine.hdb t1, SigLine.hdb t2] = .ok dbb := by
    unfold processLines
    rw [st1]
    unfold processLines
    rw [st2]
    rfl
  have hlines : processLines db0 (pre ++ [SigLine.hdb t1, SigLine.hdb t2]) = .ok dbb :=
    processLines_append_ok db0 pre [SigLine.hdb t1, SigLine.hdb t2] dpre dbb hpre htail
  have hloadok : loadSigs db0 (pre ++ [SigLine.hdb t1, SigLine.hdb t2]) = .ok (sortDB dbb) := by
    unfold loadSigs
    rw [hlines]
  refine ⟨sortDB dbb, hloadok, ?_, ?_, ?_, ?_⟩
  · show mapLookup dbb.hashToItem hsh = _
    rw [hdb2]
    exact mapLookup_insert_self _ hsh _
  · show (dbb.hashToItem.map Prod.fst).Nodup
    rw [hdb2]
    exact mapInsert_keys_nodup _ _ _ (by
      rw [hda]
      exact mapInsert_keys_nodup _ _ _ (e9 hkeys))
  · show hsh ∈ sortBy strLe dbb.hashes
    rw [sortBy_mem]
    rw [hdb2]
    exact List.mem_append_right _ (by simp)
  · have hbb : (sortDB dbb).useBloom = false := by
      show dbb.useBloom = false
      rw [hdb2]
      show da.useBloom = false
      rw [hda]
      show dpre.useBloom = false
      rw [e1]
      exact hb
    have hsort : SortedLe strLe (sortDB dbb).hashes := sortBy_sorted_str dbb.hashes
    have hmem : hsh ∈ (sortDB dbb).hashes := by
      show hsh ∈ sortBy strLe dbb.hashes
      rw [sortBy_mem]
      rw [hdb2]
      exact List.mem_append_right _ (by simp)
    rw [hasSigWithHash_mem (sortDB dbb) hbb hsort hsh, decide_eq_true hmem]

/-- C10: for every `UnknownSizeAction` other than 0 and 1 (a third,
undocumented mode), a wildcard-size record is neither skipped nor trips the
switch: its hash is indexed with the sentinel file size `-1`, the sentinel
`-1` is appended to the sizes sequence, and after the load
`HasSigWithSize (-1)` returns true even though no signature declared that
size. -/
theorem C10_undocumented_policy_mode (db0 : DB) (t hsh lab : String)
    (ha0 : ¬ (db0.unknownSizeAction = 0)) (ha1 : ¬ (db0.unknownSizeAction = 1))
    (hflag : db0.sizeAlwaysTrue = false)
    (hsplit : splitChar ':' t = [hsh, ("*"), lab]) :
    ∃ db1, loadSigs db0 [SigLine.hdb t] = .ok db1 ∧
      db1.sizeAlwaysTrue = false ∧
      hsh ∈ db1.hashes ∧
      (-1 : Int) ∈ db1.sizes ∧
      mapLookup db1.hashToItem hsh = some ⟨hsh, hashTypeOf hsh, -1, lab, ("")⟩ ∧
      hasSigWithSize db1 (-1) = .ok true none db1 := by
  have st : processLine db0 (SigLine.hdb t) = .ok { db0 with
      hashes := db0.hashes ++ [hsh]
      sizes := db0.sizes ++ [(-1 : Int)]
      hashToItem := mapInsert db0.hashToItem hsh ⟨hsh, hashTypeOf hsh, -1, lab, ("")⟩ } :=
    processHdbLine_wildcard_record db0 t hsh lab hsplit ha1 ha0
  set dr : DB := { db0 with
      hashes := db0.hashes ++ [hsh]
      sizes := db0.sizes ++ [(-1 : Int)]
      hashToItem := mapInsert db0.hashToItem hsh ⟨hsh, hashTypeOf hsh, -1, lab, ("")⟩ }
    with hdr
  have hlines : processLines db0 [SigLine.hdb t] = .ok dr := by
    unfold processLines
    rw [st]
    rfl
  have hloadok : loadSigs db0 [SigLine.hdb t] = .ok (sortDB dr) := by
    unfold loadSigs
    rw [hlines]
  have hflag1 : (sortDB dr).sizeAlwaysTrue = false := by
    show dr.sizeAlwaysTrue = false
    rw [hdr]
    exact hflag
  have hmemS : (-1 : Int) ∈ (sortDB dr).sizes := by
    show (-1 : Int) ∈ sortBy intLe dr.sizes
    rw [sortBy_mem]
    rw [hdr]
    exact List.mem_append_right _ (by simp)
  refine ⟨sortDB dr, hloadok, hflag1, ?_, hmemS, ?_, ?_⟩
  · show hsh ∈ sortBy strLe dr.hashes
    rw [sortBy_mem]
    rw [hdr]
    exact List.mem_append_right _ (by simp)
  · show mapLookup dr.hashToItem hsh = _
    rw [hdr]
    exact mapLookup_insert_self _ hsh _
  · have hsort : SortedLe intLe (sortDB dr).sizes := sortBy_sorted_int dr.sizes
    rw [hasSigWithSize_eval (sortDB dr) hsort (-1)]
    rw [decide_eq_true (Or.inr hmemS)]

/-- C5: a structurally short `.hdb` line such as `onlyonefield` makes
`LoadSigs` panic (Go index-out-of-range on `values[1]`) instead of
returning an error, while a non-parseable size field does return an error;
the claim (and the spec, and the function's own doc comment) say both cases
return an error without crashing. -/
theorem C5_malformed_line_behaviour :
    loadSigs freshDB [SigLine.hdb ("onlyonefield")] =
      .panic ("index out of range") freshDB ∧
    loadSigs freshDB [SigLine.hdb ("aa:notanum:X")] =
      .err ("ParseInt: notanum") freshDB := ⟨rfl, rfl⟩

/-- C6 counterexample: after a load aborted by a parse error, the queries do
NOT fail fast — they return ordinary boolean answers with a nil error,
computed from the partially loaded state (here the first record, already
indexed and unsorted). -/
theorem C6_counterexample :
    loadSigs freshDB [SigLine.hdb ("aa:10:A"), SigLine.hdb ("bb:zz:B")] =
      .err ("ParseInt: zz") c6db ∧
    hasSigWithHash c6db ("aa") = .ok true none c6db ∧
    hasSigWithSize c6db 10 = .ok true none c6db := ⟨rfl, rfl, rfl⟩

/-- C6 amended: the engine has no Failed state.  After `LoadSigs` (or
`LoadAll`) returns an error, the boolean queries still answer with a normal
boolean and a nil error from whatever partial state was accumulated, and
`GetItemByHash` returns its usual found/not-found result — no query fails
fast because of the failed load. -/
theorem C6_amended_no_fail_fast (db0 : DB) (lines : List SigLine) (msg : String)
    (dbP : DB)
    (hfail : loadSigs db0 lines = .err msg dbP ∨ loadAll db0 lines = .err msg dbP)
    (hb : dbP.useBloom = false) (hash : String) (n : Int) :
    (∃ b, hasSigWithHash dbP hash = .ok b none dbP) ∧
    (∃ b, hasSigWithSize dbP n = .ok b none dbP) ∧
    (∃ v e, getItemByHash dbP hash = .ok v e dbP) := by
  refine ⟨?_, ?_, ?_⟩
  · unfold hasSigWithHash
    rw [hb, if_neg (by simp)]
    exact ⟨_, rfl⟩
  · unfold hasSigWithSize
    by_cases hf : dbP.sizeAlwaysTrue
    · rw [if_pos hf]
      exact ⟨true, rfl⟩
    · rw [if_neg hf]
      exact ⟨_, rfl⟩
  · unfold getItemByHash
    by_cases hc : searchStrings dbP.hashes hash < dbP.hashes.length ∧
      dbP.hashes.getD (searchStrings dbP.hashes hash) ("") = hash
    · rw [if_pos hc]
      exact ⟨_, _, rfl⟩
    · rw [if_neg hc]
      exact ⟨_, _, rfl⟩

/-- C8 counterexample: under the disable-size-checks policy a wildcard
record DOES contribute an entry to the sizes sequence — loading the single
wildcard record `aaaa:*:Mal` completes and leaves `sizes = [-1]`, although
no record declared a numeric size. -/
theorem C8_counterexample :
    loadSigs c8input [SigLine.hdb ("aaaa:*:Mal")] = .ok c8db ∧
    c8db.sizes = [(-1 : Int)] := ⟨rfl, rfl⟩

/-- C8 amended: after every completed load the sizes sequence is the
ascending sort of the per-record size contributions — each declared numeric
size, plus one `-1` sentinel for each wildcard record retained under a
policy other than Skip (in particular under disable-size-checks); only
under the Skip policy do wildcard records contribute nothing. -/
theorem C8_amended_sizes_exact (db0 : DB) (lines : List SigLine) (db1 : DB)
    (hload : loadSigs db0 lines = .ok db1) :
    db1.sizes = sortBy intLe
      (db0.sizes ++ (lines.map (lineSizeContrib db0.unknownSizeAction)).flatten) ∧
    SortedLe intLe db1.sizes := by
  obtain ⟨q1, q2, q3, q4, q5, q6, q7, q8, q9, q10, q11⟩ :=
    loadSigs_ok_props db0 lines db1 hload
  exact ⟨q9, q2⟩

/-! ### Witnesses: the claim theorems applied at concrete loads -/

theorem C1_witness :
    (loadSigs freshDB [SigLine.hdb ("aa:5:X")] = .ok w1db ∧ ("aa") ∈ w1db.hashes ∧
      hasSigWithHash (loadBloom w1db) ("aa") = .ok true none (loadBloom w1db)) ∧
    (loadSigs wbloom0 [SigLine.hdb ("aa:5:X")] = .ok wbloom1 ∧ ("aa") ∈ wbloom1.hashes ∧
      hasSigWithHash (loadBloom wbloom1) ("aa") = .ok true none (loadBloom wbloom1)) := by
  have hm1 : ("aa") ∈ w1db.hashes := by decide
  have hm2 : ("aa") ∈ wbloom1.hashes := by decide
  exact ⟨⟨rfl, hm1,
      C1_hasHash_no_false_negatives freshDB [SigLine.hdb ("aa:5:X")] w1db ("aa") rfl hm1⟩,
    ⟨rfl, hm2,
      C1_hasHash_no_false_negatives wbloom0 [SigLine.hdb ("aa:5:X")] wbloom1 ("aa") rfl hm2⟩⟩

theorem C2_witness :
    w1db.useBloom = false ∧
    (∃ b, hasSigWithHash w1db ("zz") = .ok b none w1db ∧ (b = true ↔ ("zz") ∈ w1db.hashes)) :=
  ⟨rfl, C2_hasHash_exact_iff freshDB [SigLine.hdb ("aa:5:X")] w1db ("zz") rfl rfl⟩

theorem C3_witness :
    ∃ b, hasSigWithSize w1db 7 = .ok b none w1db ∧
      (b = true ↔ (w1db.sizeAlwaysTrue = true ∨ (7 : Int) ∈ w1db.sizes)) :=
  C3_hasSize_iff freshDB [SigLine.hdb ("aa:5:X")] w1db 7 rfl

theorem C4_witness :
    c8db.sizeAlwaysTrue = true ∧ ∀ n : Int, hasSigWithSize c8db n = .ok true none c8db :=
  C4_wildcard_switch_monotone c8input [SigLine.hdb ("aaaa:*:Mal")] c8db ("aaaa:*:Mal")
    rfl rfl (List.Mem.head _) rfl

theorem C6_amended_witness :
    c6db.useBloom = false ∧
    ((∃ b, hasSigWithHash c6db ("aa") = .ok b none c6db) ∧
     (∃ b, hasSigWithSize c6db 3 = .ok b none c6db) ∧
     (∃ v e, getItemByHash c6db ("aa") = .ok v e c6db)) :=
  ⟨rfl, C6_amended_no_fail_fast freshDB [SigLine.hdb ("aa:10:A"), SigLine.hdb ("bb:zz:B")]
    ("ParseInt: zz") c6db (Or.inl rfl) rfl ("aa") 3⟩

theorem C7_witness :
    ∃ db1, loadSigs freshDB ([] ++ [SigLine.hdb ("aa:1:A"), SigLine.hdb ("aa:2:B")]) =
        .ok db1 ∧
      mapLookup db1.hashToItem ("aa") = some ⟨("aa"), hashTypeOf ("aa"), 2, ("B"), ("")⟩ ∧
      (db1.hashToItem.map Prod.fst).Nodup ∧
      ("aa") ∈ db1.hashes ∧
      hasSigWithHash db1 ("aa") = .ok true none db1 :=
  C7_duplicate_hash_last_write_wins freshDB [] freshDB ("aa:1:A") ("aa:2:B") ("aa") ("1")
    ("2") ("A") ("B") 1 2 rfl (by simp [freshDB]) rfl rfl rfl (by decide) (by decide)
    rfl rfl (by decide)

theorem C8_amended_witness :
    c8db.sizes = sortBy intLe
      (c8input.sizes ++
        ([SigLine.hdb ("aaaa:*:Mal")].map (lineSizeContrib c8input.unknownSizeAction)).flatten) ∧
    SortedLe intLe c8db.sizes :=
  C8_amended_sizes_exact c8input [SigLine.hdb ("aaaa:*:Mal")] c8db rfl

theorem C10_witness :
    ∃ db1, loadSigs c10base [SigLine.hdb ("aaaa:*:Wild")] = .ok db1 ∧
      db1.sizeAlwaysTrue = false ∧
      ("aaaa") ∈ db1.hashes ∧
      (-1 : Int) ∈ db1.sizes ∧
      mapLookup db1.hashToItem ("aaaa") =
        some ⟨("aaaa"), hashTypeOf ("aaaa"), -1, ("Wild"), ("")⟩ ∧
      hasSigWithSize db1 (-1) = .ok true none db1 :=
  C10_undocumented_policy_mode c10base ("aaaa:*:Wild") ("aaaa") ("Wild")
    (by decide) (by decide) rfl rfl

/-- C9 counterexample: `GetItemBySize` is not repeatable on the same state.
On a state with two indexed items of size 5, two legitimate map iteration
orders (the entry list and its reverse — both permutations of the map)
yield different results for the same argument, refuting the claim that the
same query called twice with the same argument on the same state yields the
same result. -/
theorem C9_counterexample :
    c9db.hashToItem.Perm c9db.hashToItem ∧
    c9db.hashToItem.reverse.Perm c9db.hashToItem ∧
    getItemBySize c9db 5 c9db.hashToItem =
      .ok (some ⟨("aa"), (""), 5, ("A"), ("")⟩) none c9db ∧
    getItemBySize c9db 5 c9db.hashToItem.reverse =
      .ok (some ⟨("bb"), (""), 5, ("B"), ("")⟩) none c9db ∧
    ¬ (getItemBySize c9db 5 c9db.hashToItem =
        getItemBySize c9db 5 c9db.hashToItem.reverse) := by
  refine ⟨List.Perm.refl _, List.reverse_perm _, rfl, rfl, ?_⟩
  intro h
  have h1 : getItemBySize c9db 5 c9db.hashToItem =
      QueryRes.ok (some ⟨("aa"), (""), 5, ("A"), ("")⟩) none c9db := rfl
  have h2 : getItemBySize c9db 5 c9db.hashToItem.reverse =
      QueryRes.ok (some ⟨("bb"), (""), 5, ("B"), ("")⟩) none c9db := rfl
  rw [h1, h2] at h
  injection h with hval herr hst
  injection hval with hitem
  exact absurd hitem (by decide)

/-- C9 amended: on a loaded database every query method is side-effect-free
— it hands back the receiver state unchanged with its result — and
`HasSigWithHash`, `HasSigWithSize`, `GetItemByHash` and `GetHDBStats`,
whose Go bodies consume no randomized source, are functions of the state
and argument alone, so repeated identical calls agree.  `GetItemBySize`
scans the map in Go's unspecified iteration order: whether it finds an item
is still determined by the state alone (found exactly when some indexed
item has the size, with any returned item a genuine matching entry), but
which of several equal-sized items comes back depends on the order. -/
theorem C9_amended_side_effect_free (db : DB)
    (hloaded : db.useBloom = true → db.bloomFilter.isSome = true)
    (hash : String) (size : Int) (order : List (String × HDBItem))
    (horder : order.Perm db.hashToItem) :
    (∃ b, hasSigWithHash db hash = .ok b none db) ∧
    (∃ b, hasSigWithSize db size = .ok b none db) ∧
    (∃ v e, getItemByHash db hash = .ok v e db) ∧
    (∃ v e, getItemBySize db size order = .ok v e db ∧
      (∀ item, v = some item → item.filesize = size ∧ item ∈ db.hashToItem.map Prod.snd) ∧
      (v = none ↔ ∀ item ∈ db.hashToItem.map Prod.snd, ¬ item.filesize = size)) ∧
    getHDBStats db = (⟨db.hashes.length⟩, db) := by
  refine ⟨?_, ?_, ?_, ?_, rfl⟩
  · unfold hasSigWithHash
    by_cases hb : db.useBloom
    · rw [if_pos hb]
      cases hbf : db.bloomFilter with
      | some bf => exact ⟨_, rfl⟩
      | none =>
        have hcontra := hloaded hb
        rw [hbf] at hcontra
        cases hcontra
    · rw [if_neg hb]
      exact ⟨_, rfl⟩
  · unfold hasSigWithSize
    by_cases hf : db.sizeAlwaysTrue
    · rw [if_pos hf]
      exact ⟨true, rfl⟩
    · rw [if_neg hf]
      exact ⟨_, rfl⟩
  · unfold getItemByHash
    by_cases hc : searchStrings db.hashes hash < db.hashes.length ∧
      db.hashes.getD (searchStrings db.hashes hash) ("") = hash
    · rw [if_pos hc]
      exact ⟨_, _, rfl⟩
    · rw [if_neg hc]
      exact ⟨_, _, rfl⟩
  · unfold getItemBySize
    cases hfind : order.find? (fun p => p.2.filesize == size) with
    | some p =>
      have hbeq0 := List.find?_some hfind
      have hbeq : (p.2.filesize == size) = true := hbeq0
      have hsz : p.2.filesize = size := eq_of_beq hbeq
      have hmem : p ∈ db.hashToItem := (horder.mem_iff).mp (List.mem_of_find?_eq_some hfind)
      refine ⟨some p.2, none, rfl, ?_, ?_⟩
      · intro item hitem
        have hpeq : p.2 = item := by injection hitem
        constructor
        · rw [← hpeq]
          exact hsz
        · rw [← hpeq]
          exact List.mem_map.mpr ⟨p, hmem, rfl⟩
      · constructor
        · intro hnone
          cases hnone
        · intro hall
          exact absurd hsz (hall p.2 (List.mem_map.mpr ⟨p, hmem, rfl⟩))
    | none =>
      refine ⟨none, some ("item with size " ++ toString size ++ " not found"), rfl, ?_, ?_⟩
      · intro item hitem
        cases hitem
      · constructor
        · intro _ item hitem hsz
          obtain ⟨q, hq, hq2⟩ := List.mem_map.mp hitem
          have hqo : q ∈ order := (horder.mem_iff).mpr hq
          have hqfail := (List.find?_eq_none.mp hfind) q hqo
          apply hqfail
          rw [beq_iff_eq, hq2]
          exact hsz
        · intro _
          rfl

theorem C9_amended_witness :
    (w1db.useBloom = true → w1db.bloomFilter.isSome = true) ∧
    ((∃ b, hasSigWithHash w1db ("aa") = .ok b none w1db) ∧
     (∃ b, hasSigWithSize w1db 5 = .ok b none w1db) ∧
     (∃ v e, getItemByHash w1db ("aa") = .ok v e w1db) ∧
     (∃ v e, getItemBySize w1db 5 w1db.hashToItem = .ok v e w1db ∧
       (∀ item, v = some item → item.filesize = 5 ∧ item ∈ w1db.hashToItem.map Prod.snd) ∧
       (v = none ↔ ∀ item ∈ w1db.hashToItem.map Prod.snd, ¬ item.filesize = 5)) ∧
     getHDBStats w1db = (⟨w1db.hashes.length⟩, w1db)) :=
  ⟨by decide, C9_amended_side_effect_free w1db (by decide) ("aa") 5 w1db.hashToItem
    (List.Perm.refl _)⟩
